import Mathlib

/-!
Verification of the PISA core against its specification.

The C++ sources are shallowly embedded:
* `topk_queue` (include/pisa/topk_queue.hpp) — scores (C++ `float`) are modelled
  as rationals; the `std::vector` heap kept by `std::push_heap` / `std::pop_heap`
  is modelled as a plain list whose observable front is a minimal-score entry
  (the comparator `min_heap_order` orders by `>` on scores, so the heap front is
  the minimum).  Which of several equal-score entries `std::pop_heap` removes is
  unspecified; the model removes the first one, which is observationally
  equivalent for every property stated here (only score multisets matter).
-/

/-- Queue entries `entry_type = std::pair<float, uint64_t>`: (score, docid). -/
abbrev Entry := ℚ × ℕ

/-- The 0.0001 subtracted in `topk_queue::set_threshold`. -/
def epsRelaxation : ℚ := 1 / 10000

/-- Score of `m_q.front()`: the heap comparator `min_heap_order` is `>` on
scores, so the front of the heap is an entry of minimal score.  On an empty
list this returns the junk value 0 (reading the front of an empty vector is
undefined behaviour; `TopkQueue.insertReadsEmptyFront` tracks exactly when the
code does that). -/
def minScore : List Entry → ℚ
  | [] => 0
  | e :: rest => rest.foldl (fun m x => min m x.1) e.1

/-- Removes the first entry carrying the given score. -/
def removeFirstWithScore (v : ℚ) : List Entry → List Entry
  | [] => []
  | e :: rest => if e.1 = v then rest else e :: removeFirstWithScore v rest

/-- Effect of `std::pop_heap` followed by `pop_back`: one minimal-score entry
is removed. -/
def removeMinOnce (q : List Entry) : List Entry := removeFirstWithScore (minScore q) q

/-- State of `pisa::topk_queue`: `m_threshold`, `m_k`, `m_q`. -/
structure TopkQueue where
  threshold : ℚ
  k : ℕ
  q : List Entry

/-- The constructor `topk_queue(uint64_t k)`: threshold 0, empty heap. -/
def TopkQueue.init (k : ℕ) : TopkQueue := { threshold := 0, k := k, q := [] }

/-- `would_enter(score)` returns `score > m_threshold`. -/
def TopkQueue.would_enter (s : TopkQueue) (score : ℚ) : Bool := decide (s.threshold < score)

/-- `topk_queue::insert(score, docid)` (state part; the returned bool is
`would_enter score`).  Mirrors the source: early return when the score would
not enter; otherwise push; if the heap reaches exactly `m_k` entries set
`m_threshold = m_q.front().first`; if it exceeds `m_k`, pop the minimum and set
`m_threshold` to the new front. -/
def TopkQueue.insert (s : TopkQueue) (score : ℚ) (docid : ℕ) : TopkQueue :=
  if s.would_enter score then
    if (s.q ++ [(score, docid)]).length ≤ s.k then
      if (s.q ++ [(score, docid)]).length = s.k then
        { s with q := s.q ++ [(score, docid)], threshold := minScore (s.q ++ [(score, docid)]) }
      else { s with q := s.q ++ [(score, docid)] }
    else
      { s with q := removeMinOnce (s.q ++ [(score, docid)]),
               threshold := minScore (removeMinOnce (s.q ++ [(score, docid)])) }
  else s

/-- `set_threshold(t)`: `m_threshold = max(t - 0.0001, 0.0)`. -/
def TopkQueue.set_threshold (s : TopkQueue) (t : ℚ) : TopkQueue :=
  { s with threshold := max (t - epsRelaxation) 0 }

/-- True exactly when this `insert` call evaluates `m_q.front()` on an empty
heap (undefined behaviour in the source): this happens in the overflow branch
when `pop_heap`/`pop_back` has emptied the vector. -/
def TopkQueue.insertReadsEmptyFront (s : TopkQueue) (score : ℚ) (docid : ℕ) : Bool :=
  if s.would_enter score then
    if (s.q ++ [(score, docid)]).length ≤ s.k then false
    else (removeMinOnce (s.q ++ [(score, docid)])).isEmpty
  else false

/-- A sequence of `insert` calls. -/
def TopkQueue.insertSeq (s : TopkQueue) (l : List Entry) : TopkQueue :=
  l.foldl (fun acc e => acc.insert e.1 e.2) s

/-- The invariant maintained by `insert`: never more than `m_k` entries, and a
full heap's threshold is exactly the minimal kept score. -/
def TopkInv (s : TopkQueue) : Prop :=
  s.q.length ≤ s.k ∧ (s.q.length = s.k → s.threshold = minScore s.q)

/-!
Live-block bitmap (include/pisa/query/live_block_computation.hpp).

`scores` is the list of per-term `std::vector<uint8_t>` score vectors; the
outer loop runs over positions `i` of `scores[0]`.  Out-of-range reads (which
the source's preconditions exclude: all vectors share `scores[0].size()`)
are modelled with `getD _ 0`.

Per-position arithmetic:
* scalar loop: `uint16_t sum; sum += scores[term][i]` — the `uint16_t`
  assignment wraps, so each step is `(acc + x) % 65536`;
* SIMD loops: `_mm_adds_epu16` / `_mm256_adds_epu16` saturate each 16-bit
  lane, so each step is `min (acc + x) 65535`; the `load` helpers zero-extend
  8 (resp. 16) `uint8_t` values into 16-bit lanes, and
  `cmpeq(max(sum, thr), sum)` followed by `movemask`/`append_bits` emits one
  bit per lane, in position order, equal to `sum ≥ thr`.
-/

/-- Elementwise sum at position `i` with `uint16_t` wrap-around (the scalar
inner loop of `compute_live_quant16`). -/
def wrapSumAt (scores : List (List ℕ)) (i : ℕ) : ℕ :=
  match scores with
  | [] => 0
  | s0 :: rest => rest.foldl (fun acc s => (acc + s.getD i 0) % 65536) (s0.getD i 0)

/-- Elementwise sum at position `i` with 16-bit unsigned saturation (the SIMD
inner loops, `adds_epu16`). -/
def satSumAt (scores : List (List ℕ)) (i : ℕ) : ℕ :=
  match scores with
  | [] => 0
  | s0 :: rest => rest.foldl (fun acc s => min (acc + s.getD i 0) 65535) (s0.getD i 0)

/-- Exact (mathematical) elementwise sum at position `i`. -/
def totalSumAt (scores : List (List ℕ)) (i : ℕ) : ℕ :=
  match scores with
  | [] => 0
  | s0 :: rest => rest.foldl (fun acc s => acc + s.getD i 0) (s0.getD i 0)

/-- `compute_live_quant16`: one bit per position of `scores[0]`, set when the
wrapping 16-bit sum reaches the threshold. -/
def compute_live_quant16 (scores : List (List ℕ)) (threshold : ℕ) : List Bool :=
  (List.range (scores.headD []).length).map (fun i => decide (threshold ≤ wrapSumAt scores i))

/-- `avx_compute_live_quant16`: positions handled by the 128-bit vector loop
(multiples-of-8 prefix) use saturating sums; the scalar tail wraps. -/
def avx_compute_live_quant16 (scores : List (List ℕ)) (threshold : ℕ) : List Bool :=
  (List.range (scores.headD []).length).map (fun i =>
    if i < 8 * ((scores.headD []).length / 8) then decide (threshold ≤ satSumAt scores i)
    else decide (threshold ≤ wrapSumAt scores i))

/-- `avx2_compute_live_quant16`: positions handled by the 256-bit vector loop
(multiples-of-16 prefix) use saturating sums; the scalar tail wraps. -/
def avx2_compute_live_quant16 (scores : List (List ℕ)) (threshold : ℕ) : List Bool :=
  (List.range (scores.headD []).length).map (fun i =>
    if i < 16 * ((scores.headD []).length / 16) then decide (threshold ≤ satSumAt scores i)
    else decide (threshold ≤ wrapSumAt scores i))

/-- The live-block bitmap as the specification words it: one bit per block
position, set exactly when the saturated (clamped at the `uint16_t` maximum)
elementwise sum reaches the threshold. -/
def liveQuant16Spec (scores : List (List ℕ)) (threshold : ℕ) : List Bool :=
  (List.range (scores.headD []).length).map (fun i =>
    decide (threshold ≤ min (totalSumAt scores i) 65535))

/-!
Raw single-value cursor (include/pisa/v1/raw_cursor.hpp), instantiated at the
posting value type `T = std::uint32_t` (4 bytes, little-endian `bit_cast`).
`m_bytes` is the byte payload after the 4-byte length prefix is dropped by the
constructor; `m_current` is a byte offset.
-/

/-- Little-endian 32-bit read at a byte offset (the `bit_cast<T>` of a 4-byte
subspan); bytes are `uint8_t` values. -/
def readLE32 (bytes : List ℕ) (off : ℕ) : ℕ :=
  bytes.getD off 0 + 2 ^ 8 * bytes.getD (off + 1) 0 +
    2 ^ 16 * bytes.getD (off + 2) 0 + 2 ^ 24 * bytes.getD (off + 3) 0

/-- State of `RawCursor<std::uint32_t>`. -/
structure RawCursor where
  current : ℕ
  bytes : List ℕ

/-- `sentinel()` is `std::numeric_limits<std::uint32_t>::max()`. -/
def RawCursor.sentinel : ℕ := 2 ^ 32 - 1

/-- The constructor: drops the 4-byte length prefix and requires a non-empty
payload whose size is a multiple of `sizeof(T)` (the `Expects` preconditions;
their violation is modelled as `none`). -/
def RawCursor.ofBytes (bytes : List ℕ) : Option RawCursor :=
  if (bytes.drop 4).length % 4 = 0 ∧ (bytes.drop 4).length ≠ 0 then
    some { current := 0, bytes := bytes.drop 4 }
  else none

/-- `empty()`: `m_current == m_bytes.size()`. -/
def RawCursor.isExhausted (c : RawCursor) : Bool := c.current == c.bytes.length

/-- `operator*()`: the sentinel when `empty()`, otherwise the value bit_cast
from `m_bytes.subspan(m_current, sizeof(T))`; a subspan reaching past the end
violates the span precondition (undefined behaviour), modelled as `none`. -/
def RawCursor.deref (c : RawCursor) : Option ℕ :=
  if c.isExhausted then some RawCursor.sentinel
  else if c.current + 4 ≤ c.bytes.length then some (readLE32 c.bytes c.current)
  else none

/-- `advance()`: `m_current += sizeof(T)`, unconditionally. -/
def RawCursor.advance (c : RawCursor) : RawCursor := { c with current := c.current + 4 }

/-!
Query data model (src/query.cpp).  Scores (`float`) are modelled as rationals,
term ids (`std::uint32_t`) and positions (`std::size_t`) as naturals.
`std::sort`/`ranges::sort` are modelled by insertion sort (`sortBy`): any
correct sort of values with a total, antisymmetric comparator produces the
same list.
-/

/-- Boolean `≤` on naturals (the comparator passed to the modelled sorts). -/
def natLe (a b : ℕ) : Bool := decide (a ≤ b)

/-- Lexicographic comparator on `TermPair = std::pair<TermId, TermId>`. -/
def pairLe (a b : ℕ × ℕ) : Bool :=
  decide (a.1 < b.1) || (decide (a.1 = b.1) && decide (a.2 ≤ b.2))

/-- Insert into a sorted list (model of the effect of a standard sort). -/
def insertSorted (le : α → α → Bool) (a : α) : List α → List α
  | [] => [a]
  | b :: l => if le a b then a :: b :: l else b :: insertSorted le a l

/-- Insertion sort. -/
def sortBy (le : α → α → Bool) (l : List α) : List α := l.foldr (insertSorted le) []

/-- `ranges::unique` + erase after a sort: drop adjacent duplicates. -/
def dedupAdjacent [DecidableEq α] : List α → List α
  | [] => []
  | [a] => [a]
  | a :: b :: l => if a = b then dedupAdjacent (b :: l) else a :: dedupAdjacent (b :: l)

/-- `Selection<T>`: singleton selections and pair selections. -/
structure Selection (α : Type) where
  selected_terms : List α
  selected_pairs : List (α × α)
deriving DecidableEq

/-- The fields of `QueryContainerInner`. -/
structure QueryContainerInner where
  id : Option String
  query_string : Option String
  processed_terms : Option (List String)
  term_ids : Option (List ℕ)
  thresholds : List (ℕ × ℚ)
  selections : List (ℕ × Selection ℕ)
deriving DecidableEq

/-- `QueryContainer::threshold(k)`: the first entry for `k`, if any. -/
def QueryContainerInner.threshold (c : QueryContainerInner) (k : ℕ) : Option ℚ :=
  (c.thresholds.find? (fun p => p.1 == k)).map (fun p => p.2)

/-- `QueryContainer::selection(k)`: the first entry for `k`, if any. -/
def QueryContainerInner.selection (c : QueryContainerInner) (k : ℕ) : Option (Selection ℕ) :=
  (c.selections.find? (fun p => p.1 == k)).map (fun p => p.2)

/-- Modelled from the spec: the header `query.hpp` that declares the
`RequestFlag` enumeration is not under src/; per §6 it is a bitset with at
least the members Threshold, Weights and Selection, which are given distinct
single-bit values here. -/
inductive RequestFlag
  | threshold
  | weights
  | selection
deriving DecidableEq

/-- The numeric value `static_cast<std::uint32_t>(flag)`. -/
def RequestFlag.val : RequestFlag → ℕ
  | .threshold => 1
  | .weights => 2
  | .selection => 4

/-- `RequestFlagSet`: a plain bitset. -/
structure RequestFlagSet where
  flags : ℕ
deriving DecidableEq

/-- `RequestFlagSet::contains(flag)`: `(flags & flag) == flag`. -/
def RequestFlagSet.contains (s : RequestFlagSet) (f : RequestFlag) : Bool :=
  s.flags &&& f.val == f.val

/-- `RequestFlagSet::remove(flag)`: `flags ^= flag`. -/
def RequestFlagSet.remove (s : RequestFlagSet) (f : RequestFlag) : RequestFlagSet :=
  { flags := s.flags ^^^ f.val }

/-- `operator|(RequestFlag, RequestFlag)` exactly as written in the source:
it ORs the left operand with itself (`lhs | lhs`). -/
def flagOrFlag (lhs rhs : RequestFlag) : RequestFlagSet :=
  { flags := lhs.val ||| lhs.val }

/-- `operator&(RequestFlag, RequestFlag)` exactly as written in the source:
it ANDs the left operand with itself (`lhs & lhs`). -/
def flagAndFlag (lhs rhs : RequestFlag) : RequestFlagSet :=
  { flags := lhs.val &&& lhs.val }

/-- `operator|(RequestFlagSet, RequestFlag)` (this one uses both operands). -/
def setOrFlag (lhs : RequestFlagSet) (rhs : RequestFlag) : RequestFlagSet :=
  { flags := lhs.flags ||| rhs.val }

/-- `operator&(RequestFlagSet, RequestFlag)` (this one uses both operands). -/
def setAndFlag (lhs : RequestFlagSet) (rhs : RequestFlag) : RequestFlagSet :=
  { flags := lhs.flags &&& rhs.val }

/-- `std::map<TermId, std::size_t>` insertion `counts[term_id] += 1`: the map
is a key-sorted association list. -/
def bumpCount : List (ℕ × ℕ) → ℕ → List (ℕ × ℕ)
  | [], t => [(t, 1)]
  | (u, c) :: rest, t =>
    if t < u then (t, 1) :: (u, c) :: rest
    else if t = u then (u, c + 1) :: rest
    else (u, c) :: bumpCount rest t

/-- Building the counts map over all of `term_ids`. -/
def countsOf (tids : List ℕ) : List (ℕ × ℕ) := tids.foldl bumpCount []

/-- Total count associated with a key (0 when absent; duplicate keys, which
never arise, would be summed). -/
def valOf : List (ℕ × ℕ) → ℕ → ℕ
  | [], _ => 0
  | (u, c) :: rest, t => (if t = u then c else 0) + valOf rest t

/-- `std::vector::at` with its bounds check (`std::out_of_range`). -/
def atE (l : List ℕ) (p : ℕ) : Except String ℕ :=
  if h : p < l.length then .ok (l.get ⟨p, h⟩) else .error "at: out of range"

/-- Sequential `std::transform` through a throwing projection: the first
exception propagates. -/
def mapE (f : α → Except String β) : List α → Except String (List β)
  | [] => .ok []
  | a :: l =>
    match f a with
    | .error e => .error e
    | .ok b =>
      match mapE f l with
      | .error e => .error e
      | .ok bs => .ok (b :: bs)

/-- The immutable `QueryRequest` view. -/
structure QueryRequest where
  k : ℕ
  term_ids : List ℕ
  term_weights : List ℚ
  threshold : Option ℚ
  sel : Option (Selection ℕ)
deriving DecidableEq

/-- Mapping of a stored pair of term positions through `term_ids.at`. -/
def pairAtE (tids : List ℕ) (p : ℕ × ℕ) : Except String (ℕ × ℕ) :=
  match atE tids p.1, atE tids p.2 with
  | .ok a, .ok b => .ok (a, b)
  | .error e, _ => .error e
  | _, .error e => .error e

/-- The selection part of the `QueryRequest` constructor: when the Selection
flag is set and the container stores a selection for `k`, map the stored term
positions through `term_ids.at`, sort, and deduplicate. -/
def selectionFor (data : QueryContainerInner) (k : ℕ) (flags : RequestFlagSet)
    (tids : List ℕ) : Except String (Option (Selection ℕ)) :=
  match data.selection k, flags.contains RequestFlag.selection with
  | some sel, true =>
    match mapE (atE tids) sel.selected_terms, mapE (pairAtE tids) sel.selected_pairs with
    | .ok sterms, .ok spairs =>
      .ok (some { selected_terms := dedupAdjacent (sortBy natLe sterms),
                  selected_pairs := dedupAdjacent (sortBy pairLe spairs) })
    | .error e, _ => .error e
    | _, .error e => .error e
  | _, _ => .ok none

/-- `QueryRequest::QueryRequest(data, k, flags)`: `throw std::domain_error`
when `term_ids` is unset; otherwise collapse duplicates through the
`std::map` of counts, optionally map the stored selection positions through
`term_ids.at` (sorting and deduplicating ids and pairs), reset the threshold
when the Threshold flag is absent, and overwrite the weights with 1.0 when
the Weights flag is absent. -/
def makeQueryRequestSome (data : QueryContainerInner) (k : ℕ) (flags : RequestFlagSet)
    (tids : List ℕ) : Except String QueryRequest :=
  match selectionFor data k flags tids with
  | .error e => .error e
  | .ok selOpt =>
    .ok { k := k,
          term_ids := (countsOf tids).map Prod.fst,
          term_weights :=
            if flags.contains RequestFlag.weights then
              (countsOf tids).map (fun p => (p.2 : ℚ))
            else ((countsOf tids).map (fun p => (p.2 : ℚ))).map (fun _ => (1 : ℚ)),
          threshold :=
            if flags.contains RequestFlag.threshold then data.threshold k else none,
          sel := selOpt }

def makeQueryRequest (data : QueryContainerInner) (k : ℕ) (flags : RequestFlagSet) :
    Except String QueryRequest :=
  match data.term_ids with
  | none => .error "Query not parsed."
  | some tids => makeQueryRequestSome data k flags tids

/-- `QueryContainer::query(k, flags)` forwards to the `QueryRequest`
constructor. -/
def QueryContainerInner.query (c : QueryContainerInner) (k : ℕ) (flags : RequestFlagSet) :
    Except String QueryRequest :=
  makeQueryRequest c k flags

/-!
JSON round trip (src/query.cpp, `QueryContainer::to_json` / `from_json`).
The embedding works at the JSON-value level: `QueryJson` records exactly the
fields the two functions read and write (nlohmann's text dump/parse is
value-faithful for them).  `to_json` encodes each stored selection as a list
of bitmasks `1U << term` / `(1U << left) | (1U << right)` sorted numerically;
a shift count ≥ 32 is undefined behaviour on the 32-bit literal `1U` and is
modelled as `none`.  `from_json` decodes each mask by scanning the bits of
`std::bitset<64>(mask)` in ascending order into a 2-element array: no set bit
yields a singleton selection of term 0 (the zero-initialised array), one set
bit a singleton, two a pair — and for more than two set bits the source
CONSTRUCTS `std::runtime_error("Only single term and pair selections are
supported")` but never throws it (the `throw` keyword is missing at
src/query.cpp:388), after which the loop writes a third position past the end
of the array; `MaskDecode.oobWrite` marks that undefined behaviour.
-/

/-- `1U << term` (undefined behaviour when `term ≥ 32`). -/
def termMask (t : ℕ) : Option ℕ :=
  if t < 32 then some (2 ^ t) else none

/-- `(1U << left) | (1U << right)` (undefined behaviour when a position
is ≥ 32). -/
def pairMaskOpt (p : ℕ × ℕ) : Option ℕ :=
  if p.1 < 32 ∧ p.2 < 32 then some (2 ^ p.1 ||| 2 ^ p.2) else none

/-- Sequential mapping of a fallible encoding over a list. -/
def mapOpt (f : α → Option β) : List α → Option (List β)
  | [] => some []
  | a :: l =>
    match f a with
    | none => none
    | some b =>
      match mapOpt f l with
      | none => none
      | some bs => some (b :: bs)

/-- The `intersections` array emitted for one stored selection: singleton
masks, then pair masks, sorted numerically (`std::sort`). -/
def selectionMasks (sel : Selection ℕ) : Option (List ℕ) :=
  match mapOpt termMask sel.selected_terms, mapOpt pairMaskOpt sel.selected_pairs with
  | some a, some b => some (sortBy natLe (a ++ b))
  | _, _ => none

/-- The JSON object of a query line: exactly the fields `to_json` writes and
`from_json` reads (each absent when the C++ field is absent/empty). -/
structure QueryJson where
  id : Option String
  query : Option String
  terms : Option (List String)
  term_ids : Option (List ℕ)
  thresholds : Option (List (ℕ × ℚ))
  selections : Option (List (ℕ × List ℕ))
deriving DecidableEq

/-- The JSON object `to_json` builds once the selection masks are known. -/
def toJsonWith (c : QueryContainerInner) (sels : List (ℕ × List ℕ)) : QueryJson :=
  { id := c.id,
    query := c.query_string,
    terms := c.processed_terms,
    term_ids := c.term_ids,
    thresholds := if c.thresholds = [] then none else some c.thresholds,
    selections := if c.selections = [] then none else some sels }

/-- `QueryContainer::to_json`. -/
def toJson (c : QueryContainerInner) : Option QueryJson :=
  match mapOpt (fun e => (selectionMasks e.2).map (fun m => (e.1, m))) c.selections with
  | none => none
  | some sels => some (toJsonWith c sels)

/-- Result of decoding one `intersections` bitmask. -/
inductive MaskDecode
  | single (t : ℕ)
  | pair (l r : ℕ)
  | oobWrite
deriving DecidableEq

/-- The set bit positions of `std::bitset<64>(mask)`, in the ascending order
the decoding loop visits them. -/
def bitPositions (mask : ℕ) : List ℕ :=
  (List.range 64).filter (fun i => (mask % 2 ^ 64).testBit i)

/-- The per-mask decoding loop of `from_json` (see the module comment: the
popcount > 2 rejection is dead code, and three or more set bits overflow the
2-element `term_positions` array). -/
def decodeMask (mask : ℕ) : MaskDecode :=
  match bitPositions mask with
  | [] => .single 0
  | [t] => .single t
  | [l, r] => .pair l r
  | _ => .oobWrite

/-- Classification of a mask that decodes to a singleton (keeping the mask). -/
def keepSingleMask (m : ℕ) : Option ℕ :=
  match decodeMask m with
  | .single _ => some m
  | _ => none

/-- Classification of a mask that decodes to a pair (keeping the mask). -/
def keepPairMask (m : ℕ) : Option ℕ :=
  match decodeMask m with
  | .pair _ _ => some m
  | _ => none

/-- The term position encoded by a singleton mask. -/
def singleOf (m : ℕ) : ℕ :=
  match decodeMask m with
  | .single t => t
  | _ => 0

/-- The pair of positions encoded by a pair mask. -/
def pairOf (m : ℕ) : ℕ × ℕ :=
  match decodeMask m with
  | .pair l r => (l, r)
  | _ => (0, 0)

/-- The singleton term position carried by a decoded mask, if any. -/
def takeSingle : MaskDecode → Option ℕ
  | .single t => some t
  | _ => none

/-- The pair of positions carried by a decoded mask, if any. -/
def takePair : MaskDecode → Option (ℕ × ℕ)
  | .pair l r => some (l, r)
  | _ => none

/-- Decoding of one `selections` entry `{k, intersections}`; the out-of-bounds
write that the source performs on a mask with more than two set bits is
modelled as a distinguished error. -/
def decodeSelEntry (e : ℕ × List ℕ) : Except String (ℕ × Selection ℕ) :=
  if MaskDecode.oobWrite ∈ e.2.map decodeMask then
    .error "out-of-bounds write (undefined behaviour)"
  else
    .ok (e.1,
      { selected_terms := (e.2.map decodeMask).filterMap takeSingle,
        selected_pairs := (e.2.map decodeMask).filterMap takePair })

/-- The tail of `from_json` once the selections are decoded: build the
container, requiring at least one of query / terms / term ids. -/
def fromJsonChecked (j : QueryJson) (sels : List (ℕ × Selection ℕ)) :
    Except String QueryContainerInner :=
  if j.query.isSome || j.terms.isSome || j.term_ids.isSome then
    .ok { id := j.id,
          query_string := j.query,
          processed_terms := j.terms,
          term_ids := j.term_ids,
          thresholds := j.thresholds.getD [],
          selections := sels }
  else .error "JSON must have either raw query, terms, or term IDs"

/-- `QueryContainer::from_json` at the JSON-value level: parse the optional
fields, decode the selections, and require at least one of query / terms /
term ids. -/
def fromJson (j : QueryJson) : Except String QueryContainerInner :=
  match mapE decodeSelEntry (j.selections.getD []) with
  | .error e => .error e
  | .ok sels => fromJsonChecked j sels

/-- A stored selection that `to_json` represents losslessly: terms sorted
ascending and < 32; pairs with first component smaller than the second,
both < 32, listed in ascending order of their encoded masks. -/
def SelectionCanonical (sel : Selection ℕ) : Prop :=
  sel.selected_terms.Sorted (· ≤ ·) ∧
  (∀ t ∈ sel.selected_terms, t < 32) ∧
  (∀ p ∈ sel.selected_pairs, p.1 < p.2 ∧ p.2 < 32) ∧
  (sel.selected_pairs.map (fun p => 2 ^ p.1 ||| 2 ^ p.2)).Sorted (· ≤ ·)

instance (sel : Selection ℕ) : Decidable (SelectionCanonical sel) := by
  unfold SelectionCanonical
  infer_instance

/-- State of a `QueryReader` whose input lines have already been parsed into
containers, together with the registered filter and map functions. -/
structure QueryReader where
  queue : List QueryContainerInner
  filters : List (QueryContainerInner → Bool)
  maps : List (QueryContainerInner → QueryContainerInner)

/-- `QueryReader::next`: take the next container; the filter loop evaluates
each filter but its `continue` targets the inner `for` (src/query.cpp:571-575),
so rejected containers are NOT skipped; the map functions are then applied in
registration order and the container is returned. -/
def QueryReader.next (r : QueryReader) : Option QueryContainerInner × QueryReader :=
  match r.queue with
  | [] => (none, r)
  | q :: rest => (some (r.maps.foldl (fun c f => f c) q), { r with queue := rest })

lemma foldl_min_acc_or_mem (l : List Entry) (acc : ℚ) :
    l.foldl (fun m x => min m x.1) acc = acc ∨
      l.foldl (fun m x => min m x.1) acc ∈ l.map Prod.fst := by
  induction l generalizing acc with
  | nil => exact Or.inl rfl
  | cons x l ih =>
    simp only [List.foldl_cons, List.map_cons]
    rcases ih (min acc x.1) with h | h
    · rcases min_choice acc x.1 with hm | hm
      · exact Or.inl (h.trans hm)
      · exact Or.inr (by rw [h, hm]; exact List.mem_cons_self _ _)
    · exact Or.inr (List.mem_cons_of_mem _ h)

lemma minScore_mem (q : List Entry) (h : q ≠ []) : minScore q ∈ q.map Prod.fst := by
  match q with
  | [] => exact absurd rfl h
  | e :: rest =>
    simp only [minScore, List.map_cons]
    rcases foldl_min_acc_or_mem rest e.1 with hm | hm
    · rw [hm]; exact List.mem_cons_self _ _
    · exact List.mem_cons_of_mem _ hm

lemma removeFirstWithScore_length (v : ℚ) (q : List Entry) (h : v ∈ q.map Prod.fst) :
    (removeFirstWithScore v q).length + 1 = q.length := by
  induction q with
  | nil => simp at h
  | cons e rest ih =>
    simp only [removeFirstWithScore]
    by_cases he : e.1 = v
    · simp [he]
    · have hv : v ∈ rest.map Prod.fst := by
        rcases List.mem_cons.mp h with h1 | h1
        · exact absurd h1.symm he
        · exact h1
      simp [he, ih hv]

lemma removeMinOnce_length (q : List Entry) (h : q ≠ []) :
    (removeMinOnce q).length + 1 = q.length :=
  removeFirstWithScore_length _ _ (minScore_mem q h)

lemma topkInv_init (k : ℕ) : TopkInv (TopkQueue.init k) :=
  ⟨Nat.zero_le _, fun _ => rfl⟩

lemma topkInv_insert (s : TopkQueue) (score : ℚ) (docid : ℕ) (h : TopkInv s) :
    TopkInv (s.insert score docid) := by
  unfold TopkQueue.insert
  split_ifs with hw hle heq
  · exact ⟨le_of_eq heq, fun _ => rfl⟩
  · exact ⟨hle, fun hc => absurd hc heq⟩
  · have hne : s.q ++ [(score, docid)] ≠ [] := by simp
    have hlen := removeMinOnce_length _ hne
    have hq : (s.q ++ [(score, docid)]).length = s.q.length + 1 := by simp
    have h1 := h.1
    exact ⟨by simp only [TopkQueue.q]; omega, fun _ => rfl⟩
  · exact h

lemma topk_insert_k (s : TopkQueue) (score : ℚ) (docid : ℕ) :
    (s.insert score docid).k = s.k := by
  unfold TopkQueue.insert
  split_ifs <;> rfl

lemma topkInv_insertSeq (s : TopkQueue) (l : List Entry) (h : TopkInv s) :
    TopkInv (s.insertSeq l) ∧ (s.insertSeq l).k = s.k := by
  induction l generalizing s with
  | nil => exact ⟨h, rfl⟩
  | cons e l ih =>
    have step := ih (s.insert e.1 e.2) (topkInv_insert s e.1 e.2 h)
    refine ⟨step.1, ?_⟩
    rw [show s.insertSeq (e :: l) = (s.insert e.1 e.2).insertSeq l from rfl]
    rw [step.2, topk_insert_k]

/-- C1, counterexample: inserting score 5 into a fresh queue of capacity 1
fills the queue, and the threshold then equals the minimum kept score exactly —
not the minimum minus the epsilon relaxation (the 0.0001 of `set_threshold`,
which `insert` never applies). -/
theorem topk_threshold_epsilon_cex :
    ((TopkQueue.init 1).insertSeq [(5, 0)]).q.length = ((TopkQueue.init 1).insertSeq [(5, 0)]).k ∧
    ((TopkQueue.init 1).insertSeq [(5, 0)]).threshold ≠
      minScore ((TopkQueue.init 1).insertSeq [(5, 0)]).q - epsRelaxation := by
  refine ⟨by decide, ?_⟩
  have h1 : ((TopkQueue.init 1).insertSeq [(5, 0)]).threshold = 5 := by decide
  have h2 : minScore ((TopkQueue.init 1).insertSeq [(5, 0)]).q = 5 := by decide
  rw [h1, h2]
  norm_num [epsRelaxation]

/-- C1 (amended): for every capacity `k` and every sequence of `insert` calls
on a freshly constructed `topk_queue`, the queue holds at most `k` entries, and
whenever it holds exactly `k` entries the threshold equals the minimum score
currently in the queue (exactly; `insert` applies no epsilon relaxation). -/
theorem topk_insert_invariant (k : ℕ) (entries : List Entry) :
    ((TopkQueue.init k).insertSeq entries).q.length ≤ k ∧
    (((TopkQueue.init k).insertSeq entries).q.length = k →
      ((TopkQueue.init k).insertSeq entries).threshold =
        minScore ((TopkQueue.init k).insertSeq entries).q) := by
  have h := topkInv_insertSeq (TopkQueue.init k) entries (topkInv_init k)
  have hk : ((TopkQueue.init k).insertSeq entries).k = k := h.2
  refine ⟨?_, fun hc => h.1.2 (by rw [hk]; exact hc)⟩
  have h1 := h.1.1
  rw [hk] at h1
  exact h1

/-- Witness for C1's amended theorem: capacity 2, inserts (5, 0) then (3, 1);
the queue is full and the threshold is the minimum kept score. -/
theorem topk_insert_invariant_witness :
    ((TopkQueue.init 2).insertSeq [(5, 0), (3, 1)]).q.length ≤ 2 ∧
    ((TopkQueue.init 2).insertSeq [(5, 0), (3, 1)]).threshold =
      minScore ((TopkQueue.init 2).insertSeq [(5, 0), (3, 1)]).q :=
  ⟨(topk_insert_invariant 2 [(5, 0), (3, 1)]).1,
   (topk_insert_invariant 2 [(5, 0), (3, 1)]).2 (by decide)⟩

/-- C10: whenever the capacity is at least 1, `insert` never reads the front
of an empty heap; and on a queue constructed with `k = 0`, inserting a score
above the threshold does read the front of an empty heap (the overflow branch
pops the single pushed entry and then evaluates `m_q.front()`). -/
theorem topk_insert_heap_access :
    (∀ (s : TopkQueue) (score : ℚ) (docid : ℕ), 1 ≤ s.k →
      s.insertReadsEmptyFront score docid = false) ∧
    (TopkQueue.init 0).insertReadsEmptyFront 1 0 = true := by
  constructor
  · intro s score docid hk
    unfold TopkQueue.insertReadsEmptyFront
    split_ifs with hw hle
    · rfl
    · have hne : s.q ++ [(score, docid)] ≠ [] := by simp
      have hlen := removeMinOnce_length _ hne
      have hq : (s.q ++ [(score, docid)]).length = s.q.length + 1 := by simp
      rw [hq] at hle
      cases hrm : removeMinOnce (s.q ++ [(score, docid)]) with
      | nil => rw [hrm, hq] at hlen; simp only [List.length_nil] at hlen; omega
      | cons a l => rfl
    · rfl
  · decide

/-- Witness for C10's theorem: with capacity 1, inserting into a fresh queue
performs no empty-front read. -/
theorem topk_insert_heap_access_witness :
    1 ≤ (TopkQueue.init 1).k ∧
    (TopkQueue.init 1).insertReadsEmptyFront 1 0 = false :=
  ⟨by decide, topk_insert_heap_access.1 (TopkQueue.init 1) 1 0 (by decide)⟩

lemma totalSumAt_foldl_mono (i : ℕ) (l : List (List ℕ)) (acc : ℕ) :
    acc ≤ l.foldl (fun a s => a + s.getD i 0) acc := by
  induction l generalizing acc with
  | nil => exact le_refl _
  | cons s l ih => exact le_trans (Nat.le_add_right _ _) (ih _)

lemma wrap_foldl_eq_total (i : ℕ) (l : List (List ℕ)) (acc : ℕ)
    (h : l.foldl (fun a s => a + s.getD i 0) acc ≤ 65535) :
    l.foldl (fun a s => (a + s.getD i 0) % 65536) acc =
      l.foldl (fun a s => a + s.getD i 0) acc := by
  induction l generalizing acc with
  | nil => rfl
  | cons s l ih =>
    simp only [List.foldl_cons]
    have hle : acc + s.getD i 0 ≤ 65535 :=
      le_trans (totalSumAt_foldl_mono i l (acc + s.getD i 0)) h
    rw [Nat.mod_eq_of_lt (by omega)]
    exact ih _ h

lemma sat_foldl_eq_total (i : ℕ) (l : List (List ℕ)) (acc : ℕ)
    (h : l.foldl (fun a s => a + s.getD i 0) acc ≤ 65535) :
    l.foldl (fun a s => min (a + s.getD i 0) 65535) acc =
      l.foldl (fun a s => a + s.getD i 0) acc := by
  induction l generalizing acc with
  | nil => rfl
  | cons s l ih =>
    simp only [List.foldl_cons]
    have hle : acc + s.getD i 0 ≤ 65535 :=
      le_trans (totalSumAt_foldl_mono i l (acc + s.getD i 0)) h
    rw [min_eq_left hle]
    exact ih _ h

lemma wrapSumAt_eq_total (scores : List (List ℕ)) (i : ℕ)
    (h : totalSumAt scores i ≤ 65535) : wrapSumAt scores i = totalSumAt scores i := by
  match scores with
  | [] => rfl
  | s0 :: rest => exact wrap_foldl_eq_total i rest (s0.getD i 0) h

lemma satSumAt_eq_total (scores : List (List ℕ)) (i : ℕ)
    (h : totalSumAt scores i ≤ 65535) : satSumAt scores i = totalSumAt scores i := by
  match scores with
  | [] => rfl
  | s0 :: rest => exact sat_foldl_eq_total i rest (s0.getD i 0) h

set_option maxRecDepth 100000 in
/-- C3, counterexample: with 258 terms of score 255 over a single 8-position
block grid, every exact sum is 65790; the scalar bitmap wraps it to 254 while
the 128-bit SIMD loop saturates at 65535, so at threshold 1000 the two
variants disagree (the 256-bit variant, whose vector loop needs 16 positions,
falls back to the wrapping tail here and agrees with the scalar). -/
theorem live_block_variants_cex :
    avx_compute_live_quant16 (List.replicate 258 (List.replicate 8 255)) 1000 ≠
      compute_live_quant16 (List.replicate 258 (List.replicate 8 255)) 1000 := by
  decide

/-- C3 (amended): the scalar, 128-bit SIMD and 256-bit SIMD live-block
computations produce identical bit-vectors whenever no position's exact score
sum exceeds the `uint16_t` maximum 65535 (wrapping and saturation then agree);
with at most 257 terms this always holds. -/
theorem live_block_variants_agree (scores : List (List ℕ)) (threshold : ℕ)
    (h : ∀ i, i < (scores.headD []).length → totalSumAt scores i ≤ 65535) :
    avx_compute_live_quant16 scores threshold = compute_live_quant16 scores threshold ∧
    avx2_compute_live_quant16 scores threshold = compute_live_quant16 scores threshold := by
  constructor <;>
  · refine List.map_congr_left ?_
    intro i hi
    have hib : i < (scores.headD []).length := List.mem_range.mp hi
    rw [wrapSumAt_eq_total scores i (h i hib), satSumAt_eq_total scores i (h i hib)]
    split <;> rfl

/-- Witness for C3's amended theorem: the two-term scenario S6 on an
8-position grid (sums 300 everywhere). -/
theorem live_block_variants_agree_witness :
    (∀ i, i < (([[200, 200, 200, 200, 200, 200, 200, 200],
                 [100, 100, 100, 100, 100, 100, 100, 100]] : List (List ℕ)).headD []).length →
        totalSumAt [[200, 200, 200, 200, 200, 200, 200, 200],
                    [100, 100, 100, 100, 100, 100, 100, 100]] i ≤ 65535) ∧
    avx_compute_live_quant16 [[200, 200, 200, 200, 200, 200, 200, 200],
        [100, 100, 100, 100, 100, 100, 100, 100]] 255 =
      compute_live_quant16 [[200, 200, 200, 200, 200, 200, 200, 200],
        [100, 100, 100, 100, 100, 100, 100, 100]] 255 :=
  ⟨by decide,
   (live_block_variants_agree _ 255 (by decide)).1⟩

set_option maxRecDepth 100000 in
/-- C4, counterexample: for 258 terms of score 255 at a single position the
saturated sum is 65535 ≥ 1000, but the scalar computation wraps the
`uint16_t` accumulator to 254 and clears the bit. -/
theorem live_block_scalar_cex :
    compute_live_quant16 (List.replicate 258 [255]) 1000 = [false] ∧
    liveQuant16Spec (List.replicate 258 [255]) 1000 = [true] := by
  constructor <;> decide

/-- C4 (amended): the scalar live-block computation emits one bit per block
position, and bit `i` is set iff the elementwise sum at `i` — computed with
wrap-around, which coincides with the claimed saturated sum whenever the exact
sum fits `uint16_t` — is at least the threshold. -/
theorem live_block_scalar_correct (scores : List (List ℕ)) (threshold : ℕ)
    (h : ∀ i, i < (scores.headD []).length → totalSumAt scores i ≤ 65535) :
    compute_live_quant16 scores threshold = liveQuant16Spec scores threshold := by
  refine List.map_congr_left ?_
  intro i hi
  have hib : i < (scores.headD []).length := List.mem_range.mp hi
  rw [wrapSumAt_eq_total scores i (h i hib), min_eq_left (h i hib)]

/-- Witness for C4's amended theorem: scenario S6 at threshold 255 (all bits
set; the per-position sums are 300). -/
theorem live_block_scalar_correct_witness :
    (∀ i, i < (([[200, 200, 200, 200], [100, 100, 100, 100]] : List (List ℕ)).headD []).length →
        totalSumAt [[200, 200, 200, 200], [100, 100, 100, 100]] i ≤ 65535) ∧
    compute_live_quant16 [[200, 200, 200, 200], [100, 100, 100, 100]] 255 =
      liveQuant16Spec [[200, 200, 200, 200], [100, 100, 100, 100]] 255 :=
  ⟨by decide, live_block_scalar_correct _ 255 (by decide)⟩

/-- C6, counterexample: a one-element cursor that has been advanced to its end
is exhausted and dereferences to the sentinel, but a further `advance()` (the
`next()` step) is not a no-op: the cursor stops reporting exhaustion, and
dereferencing no longer yields the sentinel (the subspan read is
out-of-bounds). -/
theorem raw_cursor_advance_cex :
    (RawCursor.isExhausted { current := 4, bytes := [7, 0, 0, 0] } = true ∧
     RawCursor.deref { current := 4, bytes := [7, 0, 0, 0] } = some RawCursor.sentinel) ∧
    (RawCursor.isExhausted (RawCursor.advance { current := 4, bytes := [7, 0, 0, 0] }) = false ∧
     RawCursor.deref (RawCursor.advance { current := 4, bytes := [7, 0, 0, 0] }) ≠
       some RawCursor.sentinel) := by
  decide

/-- C6 (amended): calling `advance()` on an exhausted `RawCursor` is not a
no-op: the position moves 4 bytes past the end, after which `empty()` reports
false and `operator*()` performs an out-of-bounds subspan read (modelled as
`none`) instead of returning the sentinel. -/
theorem raw_cursor_advance_past_end (c : RawCursor) (h : c.isExhausted = true) :
    (c.advance).current = c.bytes.length + 4 ∧
    (c.advance).isExhausted = false ∧
    (c.advance).deref = none := by
  have hc : c.current = c.bytes.length := by
    simpa [RawCursor.isExhausted] using h
  refine ⟨by simp [RawCursor.advance, hc], ?_, ?_⟩
  · simp [RawCursor.advance, RawCursor.isExhausted, hc]
  · have hex : (c.advance).isExhausted = false := by
      simp [RawCursor.advance, RawCursor.isExhausted, hc]
    simp only [RawCursor.deref, hex, if_false, Bool.false_eq_true]
    have : ¬((c.advance).current + 4 ≤ (c.advance).bytes.length) := by
      simp only [RawCursor.advance, hc]
      omega
    simp [this]

/-- Witness for C6's amended theorem: the freshly-exhausted empty-payload
cursor. -/
theorem raw_cursor_advance_past_end_witness :
    RawCursor.isExhausted { current := 4, bytes := [7, 0, 0, 0] } = true ∧
    ((RawCursor.advance { current := 4, bytes := [7, 0, 0, 0] }).current = 4 + 4 ∧
     (RawCursor.advance { current := 4, bytes := [7, 0, 0, 0] }).isExhausted = false ∧
     (RawCursor.advance { current := 4, bytes := [7, 0, 0, 0] }).deref = none) :=
  ⟨by decide, raw_cursor_advance_past_end { current := 4, bytes := [7, 0, 0, 0] } (by decide)⟩

lemma bumpCount_keys_subset (m : List (ℕ × ℕ)) (t : ℕ) :
    ∀ x ∈ (bumpCount m t).map Prod.fst, x = t ∨ x ∈ m.map Prod.fst := by
  induction m with
  | nil =>
    intro x hx
    simp [bumpCount] at hx
    exact Or.inl hx
  | cons e rest ih =>
    intro x hx
    rw [show bumpCount (e :: rest) t = bumpCount ((e.1, e.2) :: rest) t by rw [Prod.mk.eta]] at hx
    simp only [bumpCount] at hx
    split_ifs at hx with h1 h2
    · simp only [List.map_cons, List.mem_cons] at hx
      rcases hx with h | h | h
      · exact Or.inl h
      · exact Or.inr (by simp [h])
      · exact Or.inr (by simp [h])
    · simp only [List.map_cons, List.mem_cons] at hx
      rcases hx with h | h
      · exact Or.inr (by simp [h])
      · exact Or.inr (by simp [h])
    · simp only [List.map_cons, List.mem_cons] at hx
      rcases hx with h | h
      · exact Or.inr (by simp [h])
      · rcases ih x h with h3 | h3
        · exact Or.inl h3
        · exact Or.inr (List.mem_cons_of_mem _ h3)

lemma bumpCount_keys_sorted (m : List (ℕ × ℕ)) (t : ℕ)
    (h : (m.map Prod.fst).Pairwise (· < ·)) :
    ((bumpCount m t).map Prod.fst).Pairwise (· < ·) := by
  induction m with
  | nil => simp [bumpCount]
  | cons e rest ih =>
    rw [List.map_cons, List.pairwise_cons] at h
    rw [show bumpCount (e :: rest) t = bumpCount ((e.1, e.2) :: rest) t by rw [Prod.mk.eta]]
    simp only [bumpCount]
    split_ifs with h1 h2
    · rw [List.map_cons, List.pairwise_cons]
      refine ⟨?_, by rw [List.map_cons, List.pairwise_cons]; exact h⟩
      intro x hx
      rw [List.map_cons, List.mem_cons] at hx
      rcases hx with h3 | h3
      · rw [h3]; exact h1
      · exact lt_trans h1 (h.1 x h3)
    · rw [List.map_cons, List.pairwise_cons]
      exact ⟨h.1, h.2⟩
    · rw [List.map_cons, List.pairwise_cons]
      refine ⟨?_, ih h.2⟩
      intro x hx
      rcases bumpCount_keys_subset rest t x hx with h3 | h3
      · rw [h3]; omega
      · exact h.1 x h3

lemma valOf_cons (a c : ℕ) (l : List (ℕ × ℕ)) (u : ℕ) :
    valOf ((a, c) :: l) u = (if u = a then c else 0) + valOf l u := rfl

lemma valOf_bump_self (m : List (ℕ × ℕ)) (t : ℕ) :
    valOf (bumpCount m t) t = valOf m t + 1 := by
  induction m with
  | nil => simp [bumpCount, valOf]
  | cons e rest ih =>
    obtain ⟨a, c⟩ := e
    by_cases h1 : t < a
    · have hne : ¬(t = a) := by omega
      simp only [bumpCount]
      rw [if_pos h1]
      simp only [valOf_cons, if_true]
      rw [if_neg hne]
      omega
    · by_cases h2 : t = a
      · subst h2
        simp only [bumpCount]
        rw [if_neg h1]
        simp only [if_true, valOf_cons]
        omega
      · simp only [bumpCount]
        rw [if_neg h1, if_neg h2]
        simp only [valOf_cons]
        rw [if_neg h2, ih]
        omega

lemma valOf_bump_other (m : List (ℕ × ℕ)) (t u : ℕ) (h : ¬(u = t)) :
    valOf (bumpCount m t) u = valOf m u := by
  induction m with
  | nil => simp [bumpCount, valOf, h]
  | cons e rest ih =>
    obtain ⟨a, c⟩ := e
    by_cases h1 : t < a
    · simp only [bumpCount]
      rw [if_pos h1]
      simp only [valOf_cons]
      rw [if_neg h]
      omega
    · by_cases h2 : t = a
      · subst h2
        have hne : ¬(u = t) := h
        simp only [bumpCount]
        rw [if_neg h1]
        simp only [if_true, valOf_cons]
        rw [if_neg hne, if_neg hne]
      · simp only [bumpCount]
        rw [if_neg h1, if_neg h2]
        simp only [valOf_cons]
        rw [ih]

lemma bumpCount_pos (m : List (ℕ × ℕ)) (t : ℕ) (h : ∀ p ∈ m, 1 ≤ p.2) :
    ∀ p ∈ bumpCount m t, 1 ≤ p.2 := by
  induction m with
  | nil =>
    intro p hp
    simp [bumpCount] at hp
    simp [hp]
  | cons e rest ih =>
    intro p hp
    rw [show bumpCount (e :: rest) t = bumpCount ((e.1, e.2) :: rest) t by rw [Prod.mk.eta]] at hp
    simp only [bumpCount] at hp
    have he : 1 ≤ e.2 := h e (List.mem_cons_self _ _)
    have hr : ∀ p ∈ rest, 1 ≤ p.2 := fun p hp => h p (List.mem_cons_of_mem _ hp)
    split_ifs at hp with h1 h2
    · rcases List.mem_cons.mp hp with h3 | h3
      · simp [h3]
      · rcases List.mem_cons.mp h3 with h4 | h4
        · rw [h4]; exact he
        · exact hr p h4
    · rcases List.mem_cons.mp hp with h3 | h3
      · rw [h3]; omega
      · exact hr p h3
    · rcases List.mem_cons.mp hp with h3 | h3
      · rw [h3]; exact he
      · exact ih hr p h3

lemma valOf_pos_iff_mem (m : List (ℕ × ℕ)) (t : ℕ) (h : ∀ p ∈ m, 1 ≤ p.2) :
    0 < valOf m t ↔ t ∈ m.map Prod.fst := by
  induction m with
  | nil => simp [valOf]
  | cons e rest ih =>
    rw [show valOf (e :: rest) = valOf ((e.1, e.2) :: rest) by rw [Prod.mk.eta]]
    simp only [valOf, List.map_cons, List.mem_cons]
    have he : 1 ≤ e.2 := h e (List.mem_cons_self _ _)
    have hr : ∀ p ∈ rest, 1 ≤ p.2 := fun p hp => h p (List.mem_cons_of_mem _ hp)
    by_cases h1 : t = e.1
    · simp only [h1, if_true, true_or, iff_true]
      omega
    · simp only [h1, if_false, false_or]
      rw [← ih hr]
      omega

lemma valOf_eq_zero_of_not_mem (m : List (ℕ × ℕ)) (t : ℕ) (h : t ∉ m.map Prod.fst) :
    valOf m t = 0 := by
  induction m with
  | nil => rfl
  | cons e rest ih =>
    rw [show valOf (e :: rest) = valOf ((e.1, e.2) :: rest) by rw [Prod.mk.eta]]
    simp only [List.map_cons, List.mem_cons] at h
    push_neg at h
    simp only [valOf, h.1, if_false]
    rw [ih h.2]

lemma valOf_eq_of_mem_sorted (m : List (ℕ × ℕ))
    (hs : (m.map Prod.fst).Pairwise (· < ·)) (p : ℕ × ℕ) (hp : p ∈ m) :
    valOf m p.1 = p.2 := by
  induction m with
  | nil => simp at hp
  | cons e rest ih =>
    rw [List.map_cons, List.pairwise_cons] at hs
    rw [show valOf (e :: rest) = valOf ((e.1, e.2) :: rest) by rw [Prod.mk.eta]]
    rcases List.mem_cons.mp hp with h1 | h1
    · subst h1
      have hnm : p.1 ∉ rest.map Prod.fst := by
        intro hmem
        exact absurd (hs.1 p.1 hmem) (lt_irrefl _)
      simp [valOf, valOf_eq_zero_of_not_mem rest p.1 hnm]
    · have hmem : p.1 ∈ rest.map Prod.fst := List.mem_map_of_mem Prod.fst h1
      have hne : ¬(p.1 = e.1) := by
        have := hs.1 p.1 hmem
        omega
      simp only [valOf, hne, if_false, Nat.zero_add]
      exact ih hs.2 h1

lemma countsOf_foldl_val (l : List ℕ) (m : List (ℕ × ℕ)) (u : ℕ) :
    valOf (l.foldl bumpCount m) u = valOf m u + l.count u := by
  induction l generalizing m with
  | nil => simp
  | cons t l ih =>
    rw [List.foldl_cons, ih]
    by_cases h : u = t
    · subst h
      rw [valOf_bump_self]
      simp [List.count_cons]
      omega
    · rw [valOf_bump_other _ _ _ h]
      have hne : ¬(t = u) := fun hc => h hc.symm
      simp [List.count_cons, hne]

lemma countsOf_val (tids : List ℕ) (u : ℕ) : valOf (countsOf tids) u = tids.count u := by
  have := countsOf_foldl_val tids [] u
  simpa [countsOf, valOf] using this

lemma countsOf_foldl_sorted (l : List ℕ) (m : List (ℕ × ℕ))
    (h : (m.map Prod.fst).Pairwise (· < ·)) :
    ((l.foldl bumpCount m).map Prod.fst).Pairwise (· < ·) := by
  induction l generalizing m with
  | nil => exact h
  | cons t l ih => exact ih _ (bumpCount_keys_sorted m t h)

lemma countsOf_sorted (tids : List ℕ) :
    ((countsOf tids).map Prod.fst).Pairwise (· < ·) :=
  countsOf_foldl_sorted tids [] (by simp)

lemma countsOf_foldl_pos (l : List ℕ) (m : List (ℕ × ℕ)) (h : ∀ p ∈ m, 1 ≤ p.2) :
    ∀ p ∈ l.foldl bumpCount m, 1 ≤ p.2 := by
  induction l generalizing m with
  | nil => exact h
  | cons t l ih => exact ih _ (bumpCount_pos m t h)

lemma countsOf_pos (tids : List ℕ) : ∀ p ∈ countsOf tids, 1 ≤ p.2 :=
  countsOf_foldl_pos tids [] (by simp)

lemma countsOf_mem_iff (tids : List ℕ) (t : ℕ) :
    t ∈ (countsOf tids).map Prod.fst ↔ t ∈ tids := by
  rw [← valOf_pos_iff_mem _ _ (countsOf_pos tids), countsOf_val]
  exact List.count_pos_iff

lemma countsOf_snd_eq_count (tids : List ℕ) (p : ℕ × ℕ) (hp : p ∈ countsOf tids) :
    p.2 = tids.count p.1 := by
  rw [← countsOf_val tids p.1]
  exact (valOf_eq_of_mem_sorted _ (countsOf_sorted tids) p hp).symm

/-- C2: `query(k, flags)` errors when `term_ids` is unset; when it produces a
request, the request's term ids are strictly sorted (hence unique), contain
exactly the container's term ids, the parallel weights are the multiplicities
(all 1.0 when the Weights flag is cleared), and the request carries no
threshold when the Threshold flag is cleared (and the container's threshold
for `k` when it is set). -/
theorem query_request_construction (data : QueryContainerInner) (k : ℕ) (flags : RequestFlagSet) :
    (data.term_ids = none → data.query k flags = Except.error "Query not parsed.") ∧
    (∀ tids req, data.term_ids = some tids → data.query k flags = Except.ok req →
      req.term_ids.Sorted (· < ·) ∧
      (∀ t, t ∈ req.term_ids ↔ t ∈ tids) ∧
      (flags.contains RequestFlag.weights = true →
        req.term_weights = req.term_ids.map (fun t => ((tids.count t : ℕ) : ℚ))) ∧
      (flags.contains RequestFlag.weights = false →
        req.term_weights = req.term_ids.map (fun _ => (1 : ℚ))) ∧
      (flags.contains RequestFlag.threshold = false → req.threshold = none) ∧
      (flags.contains RequestFlag.threshold = true → req.threshold = data.threshold k)) := by
  constructor
  · intro h
    unfold QueryContainerInner.query makeQueryRequest
    rw [h]
  · intro tids req htids hok
    unfold QueryContainerInner.query makeQueryRequest at hok
    rw [htids] at hok
    have hok2 : makeQueryRequestSome data k flags tids = Except.ok req := hok
    unfold makeQueryRequestSome at hok2
    cases hsel : selectionFor data k flags tids with
    | error e =>
      rw [hsel] at hok2
      simp at hok2
    | ok selOpt =>
      rw [hsel] at hok2
      have hok3 : Except.ok
          (QueryRequest.mk k ((countsOf tids).map Prod.fst)
            (if flags.contains RequestFlag.weights then
                (countsOf tids).map (fun p => (p.2 : ℚ))
              else ((countsOf tids).map (fun p => (p.2 : ℚ))).map (fun _ => (1 : ℚ)))
            (if flags.contains RequestFlag.threshold then data.threshold k else none)
            selOpt) = Except.ok req := hok2
      injection hok3 with hok4
      subst hok4
      refine ⟨countsOf_sorted tids, fun t => countsOf_mem_iff tids t, ?_, ?_, ?_, ?_⟩
      · intro hw
        simp only [QueryRequest.term_weights, QueryRequest.term_ids]
        rw [hw, if_pos rfl, List.map_map]
        refine List.map_congr_left ?_
        intro p hp
        simp only [Function.comp_apply]
        rw [countsOf_snd_eq_count tids p hp]
      · intro hw
        simp only [QueryRequest.term_weights, QueryRequest.term_ids]
        rw [hw, if_neg Bool.false_ne_true, List.map_map, List.map_map]
        rfl
      · intro ht
        simp only [QueryRequest.threshold]
        rw [ht, if_neg Bool.false_ne_true]
      · intro ht
        simp only [QueryRequest.threshold]
        rw [ht, if_pos rfl]

/-- Witness for C2's theorem: container with term ids `[3, 1, 3]`, `k = 10`,
all flags set; the request has ids `[1, 3]` with weights `[1, 2]`. -/
theorem query_request_construction_witness :
    (QueryContainerInner.mk none none none (some [3, 1, 3]) [] []).query 10
        (RequestFlagSet.mk 7) =
      Except.ok (QueryRequest.mk 10 [1, 3] [1, 2] none none) ∧
    ([1, 3] : List ℕ).Sorted (· < ·) ∧
    (3 ∈ ([1, 3] : List ℕ) ↔ 3 ∈ ([3, 1, 3] : List ℕ)) ∧
    (QueryRequest.mk 10 [1, 3] [1, 2] none none).term_weights =
      (QueryRequest.mk 10 [1, 3] [1, 2] none none).term_ids.map
        (fun t => ((([3, 1, 3] : List ℕ).count t : ℕ) : ℚ)) := by
  have hok : (QueryContainerInner.mk none none none (some [3, 1, 3]) [] []).query 10
      (RequestFlagSet.mk 7) = Except.ok (QueryRequest.mk 10 [1, 3] [1, 2] none none) := by
    rfl
  have h := (query_request_construction
      (QueryContainerInner.mk none none none (some [3, 1, 3]) [] []) 10
      (RequestFlagSet.mk 7)).2 [3, 1, 3] (QueryRequest.mk 10 [1, 3] [1, 2] none none) rfl hok
  exact ⟨hok, h.1, h.2.1 3, h.2.2.1 (by rfl)⟩

/-- C9: the source's `operator|`/`operator&` on two `RequestFlag`s combine the
left operand with itself, so `Threshold | Weights` yields the flag set {1}
(which does not contain Weights) instead of the bitwise union 3, and
`Threshold & Weights` yields {1} instead of the bitwise intersection 0. -/
theorem request_flag_operator_bug :
    flagOrFlag RequestFlag.threshold RequestFlag.weights = RequestFlagSet.mk 1 ∧
    (flagOrFlag RequestFlag.threshold RequestFlag.weights).contains RequestFlag.weights = false ∧
    (RequestFlag.threshold.val ||| RequestFlag.weights.val) = 3 ∧
    flagAndFlag RequestFlag.threshold RequestFlag.weights = RequestFlagSet.mk 1 ∧
    (RequestFlag.threshold.val &&& RequestFlag.weights.val) = 0 := by
  refine ⟨rfl, by decide, by decide, rfl, by decide⟩

/-- C7 (code-bug evaluation): masks with one set bit decode to singleton
selections and masks with two set bits to pairs of the set positions (scenario
S5: `[1, 6]` at k = 10 gives terms `[0]` and pairs `[(1, 2)]`); but a mask
with three set bits, e.g. 7, is NOT rejected with the malformed-input error —
the source constructs the `std::runtime_error` without throwing it and then
writes a third position past the end of the 2-element array (undefined
behaviour, `MaskDecode.oobWrite`). -/
theorem selection_mask_decoding :
    decodeMask 1 = MaskDecode.single 0 ∧
    decodeMask 2 = MaskDecode.single 1 ∧
    decodeMask 6 = MaskDecode.pair 1 2 ∧
    decodeSelEntry (10, [1, 6]) = Except.ok (10, Selection.mk [0] [(1, 2)]) ∧
    decodeMask 7 = MaskDecode.oobWrite := by
  refine ⟨by decide, by decide, by decide, rfl, by decide⟩

/-- C8 (code-bug evaluation): a reader whose only filter rejects every
container still returns the container — the filter loop's `continue` does not
skip it; the registered map functions are applied in registration order (the
second example appends 5 then 6 to the term ids). -/
theorem query_reader_filter_bug :
    (QueryReader.next
        { queue := [QueryContainerInner.mk none none none (some [1]) [] []],
          filters := [fun _ => false],
          maps := [] }).1 =
      some (QueryContainerInner.mk none none none (some [1]) [] []) ∧
    (QueryReader.next
        { queue := [QueryContainerInner.mk none none none (some [1]) [] []],
          filters := [fun _ => false],
          maps := [fun c => QueryContainerInner.mk c.id c.query_string c.processed_terms
                     (some ((c.term_ids.getD []) ++ [5])) c.thresholds c.selections,
                   fun c => QueryContainerInner.mk c.id c.query_string c.processed_terms
                     (some ((c.term_ids.getD []) ++ [6])) c.thresholds c.selections] }).1 =
      some (QueryContainerInner.mk none none none (some [1, 5, 6]) [] []) :=
  ⟨rfl, rfl⟩

lemma insertSorted_perm (le : α → α → Bool) (a : α) (l : List α) :
    (insertSorted le a l).Perm (a :: l) := by
  induction l with
  | nil => exact List.Perm.refl _
  | cons b l ih =>
    simp only [insertSorted]
    by_cases h : le a b
    · rw [if_pos h]
    · rw [if_neg h]
      exact (ih.cons b).trans (List.Perm.swap a b l)

lemma sortBy_perm (le : α → α → Bool) (l : List α) : (sortBy le l).Perm l := by
  induction l with
  | nil => exact List.Perm.refl _
  | cons a l ih =>
    exact (insertSorted_perm le a (sortBy le l)).trans (ih.cons a)

lemma insertSorted_sorted_le (a : ℕ) (l : List ℕ) (h : l.Pairwise (· ≤ ·)) :
    (insertSorted natLe a l).Pairwise (· ≤ ·) := by
  induction l with
  | nil => simp [insertSorted]
  | cons b l ih =>
    rw [List.pairwise_cons] at h
    simp only [insertSorted]
    by_cases hab : natLe a b
    · rw [if_pos hab]
      have hab2 : a ≤ b := by simpa [natLe] using hab
      rw [List.pairwise_cons]
      refine ⟨?_, by rw [List.pairwise_cons]; exact h⟩
      intro x hx
      rcases List.mem_cons.mp hx with h1 | h1
      · exact h1 ▸ hab2
      · exact le_trans hab2 (h.1 x h1)
    · rw [if_neg hab]
      have hba : b ≤ a := by
        have h2 : ¬(a ≤ b) := by simpa [natLe] using hab
        omega
      rw [List.pairwise_cons]
      refine ⟨?_, ih h.2⟩
      intro x hx
      have hmem : x ∈ a :: l := (insertSorted_perm natLe a l).mem_iff.mp hx
      rcases List.mem_cons.mp hmem with h1 | h1
      · exact h1 ▸ hba
      · exact h.1 x h1

lemma sortBy_sorted_le (l : List ℕ) : (sortBy natLe l).Pairwise (· ≤ ·) := by
  induction l with
  | nil => simp [sortBy]
  | cons a l ih => exact insertSorted_sorted_le a _ ih

lemma filter_range_eq_single (p : ℕ → Bool) (t : ℕ) :
    ∀ n, t < n → p t = true → (∀ i, i < n → i ≠ t → p i = false) →
      (List.range n).filter p = [t] := by
  intro n
  induction n with
  | zero => intro h; omega
  | succ n ih =>
    intro ht hpt ho
    rw [List.range_succ, List.filter_append]
    by_cases hn : t = n
    · subst hn
      have h1 : (List.range t).filter p = [] := by
        rw [List.filter_eq_nil_iff]
        intro a ha
        have h2 : a < t := List.mem_range.mp ha
        rw [ho a (by omega) (by omega)]
        simp
      rw [h1]
      simp [hpt]
    · have h2 : (List.range n).filter p = [t] :=
        ih (by omega) hpt (fun i hi hne => ho i (by omega) hne)
      rw [h2]
      have h3 : p n = false := ho n (by omega) (by omega)
      simp [h3]

lemma filter_range_eq_pair (p : ℕ → Bool) (l r : ℕ) :
    ∀ n, l < r → r < n → p l = true → p r = true →
      (∀ i, i < n → i ≠ l → i ≠ r → p i = false) →
      (List.range n).filter p = [l, r] := by
  intro n
  induction n with
  | zero => intro _ h; omega
  | succ n ih =>
    intro hlr hr hpl hpr ho
    rw [List.range_succ, List.filter_append]
    by_cases hn : r = n
    · subst hn
      have h1 : (List.range r).filter p = [l] :=
        filter_range_eq_single p l r hlr hpl
          (fun i hi hne => ho i (by omega) hne (by omega))
      rw [h1]
      simp [hpr]
    · have h2 : (List.range n).filter p = [l, r] :=
        ih hlr (by omega) hpl hpr (fun i hi h3 h4 => ho i (by omega) h3 h4)
      rw [h2]
      have h3 : p n = false := ho n (by omega) (by omega) (by omega)
      simp [h3]

lemma bitPositions_eq_filter (mask : ℕ) :
    bitPositions mask = (List.range 64).filter (fun i => mask.testBit i) := by
  unfold bitPositions
  refine List.filter_congr ?_
  intro i hi
  have h : i < 64 := List.mem_range.mp hi
  rw [Nat.testBit_mod_two_pow]
  simp [h]

lemma bitPositions_two_pow (t : ℕ) (ht : t < 64) : bitPositions (2 ^ t) = [t] := by
  rw [bitPositions_eq_filter]
  refine filter_range_eq_single _ t 64 ht ?_ ?_
  · simp [Nat.testBit_two_pow]
  · intro i hi hne
    simp only [Nat.testBit_two_pow]
    simp
    omega

lemma bitPositions_lor_two_pow (l r : ℕ) (hlr : l < r) (hr : r < 64) :
    bitPositions (2 ^ l ||| 2 ^ r) = [l, r] := by
  rw [bitPositions_eq_filter]
  refine filter_range_eq_pair _ l r 64 hlr hr ?_ ?_ ?_
  · simp [Nat.testBit_or, Nat.testBit_two_pow]
  · simp [Nat.testBit_or, Nat.testBit_two_pow]
  · intro i hi h1 h2
    simp only [Nat.testBit_or, Nat.testBit_two_pow]
    simp
    omega

lemma decodeMask_two_pow (t : ℕ) (ht : t < 64) : decodeMask (2 ^ t) = MaskDecode.single t := by
  unfold decodeMask
  rw [bitPositions_two_pow t ht]

lemma decodeMask_pair (l r : ℕ) (hlr : l < r) (hr : r < 64) :
    decodeMask (2 ^ l ||| 2 ^ r) = MaskDecode.pair l r := by
  unfold decodeMask
  rw [bitPositions_lor_two_pow l r hlr hr]

lemma mapOpt_eq_map (f : α → Option β) (g : α → β) (l : List α)
    (h : ∀ x ∈ l, f x = some (g x)) : mapOpt f l = some (l.map g) := by
  induction l with
  | nil => rfl
  | cons a l ih =>
    have h1 := h a (List.mem_cons_self _ _)
    have h2 := ih (fun x hx => h x (List.mem_cons_of_mem _ hx))
    simp [mapOpt, h1, h2]

lemma filterMap_eq_self_of (f : α → Option α) (l : List α) (h : ∀ x ∈ l, f x = some x) :
    l.filterMap f = l := by
  induction l with
  | nil => rfl
  | cons a l ih =>
    have h1 := h a (List.mem_cons_self _ _)
    have h2 := ih (fun x hx => h x (List.mem_cons_of_mem _ hx))
    simp [List.filterMap_cons, h1, h2]

lemma keepSingleMask_eq_some (m x : ℕ) (h : keepSingleMask m = some x) : x = m := by
  unfold keepSingleMask at h
  cases hd : decodeMask m with
  | single t => rw [hd] at h; injection h with h; exact h.symm
  | pair l r => rw [hd] at h; cases h
  | oobWrite => rw [hd] at h; cases h

lemma keepPairMask_eq_some (m x : ℕ) (h : keepPairMask m = some x) : x = m := by
  unfold keepPairMask at h
  cases hd : decodeMask m with
  | single t => rw [hd] at h; cases h
  | pair l r => rw [hd] at h; injection h with h; exact h.symm
  | oobWrite => rw [hd] at h; cases h

lemma takeSingle_decode (m : ℕ) :
    takeSingle (decodeMask m) = (keepSingleMask m).map singleOf := by
  cases hd : decodeMask m <;> simp [takeSingle, keepSingleMask, singleOf, hd]

lemma takePair_decode (m : ℕ) :
    takePair (decodeMask m) = (keepPairMask m).map pairOf := by
  cases hd : decodeMask m <;> simp [takePair, keepPairMask, pairOf, hd]

lemma decode_masks_sorted (terms : List ℕ) (pairs : List (ℕ × ℕ))
    (hsort : terms.Pairwise (· ≤ ·))
    (hlt : ∀ t ∈ terms, t < 32)
    (hpairs : ∀ p ∈ pairs, p.1 < p.2 ∧ p.2 < 32)
    (hpsort : (pairs.map (fun p => 2 ^ p.1 ||| 2 ^ p.2)).Pairwise (· ≤ ·)) :
    (sortBy natLe (terms.map (fun t => 2 ^ t) ++
        pairs.map (fun p => 2 ^ p.1 ||| 2 ^ p.2))).filterMap (takeSingle ∘ decodeMask) = terms ∧
    (sortBy natLe (terms.map (fun t => 2 ^ t) ++
        pairs.map (fun p => 2 ^ p.1 ||| 2 ^ p.2))).filterMap (takePair ∘ decodeMask) = pairs ∧
    MaskDecode.oobWrite ∉ (sortBy natLe (terms.map (fun t => 2 ^ t) ++
        pairs.map (fun p => 2 ^ p.1 ||| 2 ^ p.2))).map decodeMask := by
  set a := terms.map (fun t => 2 ^ t) with ha
  set b := pairs.map (fun p => 2 ^ p.1 ||| 2 ^ p.2) with hb
  set masks := sortBy natLe (a ++ b) with hm
  have hperm : masks.Perm (a ++ b) := sortBy_perm _ _
  have hsorted : masks.Pairwise (· ≤ ·) := sortBy_sorted_le _
  have hda : ∀ m ∈ a, ∃ t, t < 32 ∧ decodeMask m = MaskDecode.single t ∧ 2 ^ t = m := by
    intro m hma2
    rw [ha] at hma2
    obtain ⟨t, ht1, ht2⟩ := List.mem_map.mp hma2
    refine ⟨t, hlt t ht1, ?_, ht2⟩
    rw [← ht2]
    exact decodeMask_two_pow t (by have := hlt t ht1; omega)
  have hdb : ∀ m ∈ b, ∃ l r, l < r ∧ r < 32 ∧ decodeMask m = MaskDecode.pair l r := by
    intro m hmb2
    rw [hb] at hmb2
    obtain ⟨p, hp1, hp2⟩ := List.mem_map.mp hmb2
    have h3 := hpairs p hp1
    refine ⟨p.1, p.2, h3.1, h3.2, ?_⟩
    rw [← hp2]
    exact decodeMask_pair p.1 p.2 h3.1 (by omega)
  have hKa : a.filterMap keepSingleMask = a := by
    apply filterMap_eq_self_of
    intro x hx
    obtain ⟨t, _, hdec, _⟩ := hda x hx
    simp [keepSingleMask, hdec]
  have hKb : b.filterMap keepSingleMask = [] := by
    rw [List.filterMap_eq_nil_iff]
    intro x hx
    obtain ⟨l, r, _, _, hdec⟩ := hdb x hx
    simp [keepSingleMask, hdec]
  have hPa : a.filterMap keepPairMask = [] := by
    rw [List.filterMap_eq_nil_iff]
    intro x hx
    obtain ⟨t, _, hdec, _⟩ := hda x hx
    simp [keepPairMask, hdec]
  have hPb : b.filterMap keepPairMask = b := by
    apply filterMap_eq_self_of
    intro x hx
    obtain ⟨l, r, _, _, hdec⟩ := hdb x hx
    simp [keepPairMask, hdec]
  have haSorted : a.Pairwise (· ≤ ·) := by
    rw [ha, List.pairwise_map]
    exact hsort.imp (fun hst => Nat.pow_le_pow_right (by omega) hst)
  have hKeepA : masks.filterMap keepSingleMask = a := by
    apply List.eq_of_perm_of_sorted (r := (· ≤ ·))
    · have hp2 : (masks.filterMap keepSingleMask).Perm ((a ++ b).filterMap keepSingleMask) :=
        hperm.filterMap _
      rw [List.filterMap_append, hKa, hKb, List.append_nil] at hp2
      exact hp2
    · show List.Pairwise (· ≤ ·) (masks.filterMap keepSingleMask)
      rw [List.pairwise_filterMap]
      refine hsorted.imp ?_
      intro m m2 hmm x hx x2 hx2
      rw [keepSingleMask_eq_some m x (Option.mem_def.mp hx),
          keepSingleMask_eq_some m2 x2 (Option.mem_def.mp hx2)]
      exact hmm
    · exact haSorted
  have hKeepP : masks.filterMap keepPairMask = b := by
    apply List.eq_of_perm_of_sorted (r := (· ≤ ·))
    · have hp2 : (masks.filterMap keepPairMask).Perm ((a ++ b).filterMap keepPairMask) :=
        hperm.filterMap _
      rw [List.filterMap_append, hPa, hPb, List.nil_append] at hp2
      exact hp2
    · show List.Pairwise (· ≤ ·) (masks.filterMap keepPairMask)
      rw [List.pairwise_filterMap]
      refine hsorted.imp ?_
      intro m m2 hmm x hx x2 hx2
      rw [keepPairMask_eq_some m x (Option.mem_def.mp hx),
          keepPairMask_eq_some m2 x2 (Option.mem_def.mp hx2)]
      exact hmm
    · rw [hb]
      exact hpsort
  refine ⟨?_, ?_, ?_⟩
  · have hfun : (takeSingle ∘ decodeMask) = (fun m => (keepSingleMask m).map singleOf) :=
      funext takeSingle_decode
    rw [hfun, ← List.map_filterMap, hKeepA, ha, List.map_map]
    have hid : ∀ t ∈ terms, (singleOf ∘ fun t => 2 ^ t) t = t := by
      intro t ht
      have h4 := hlt t ht
      simp [Function.comp, singleOf, decodeMask_two_pow t (by omega)]
    rw [List.map_congr_left hid]; exact List.map_id _
  · have hfun : (takePair ∘ decodeMask) = (fun m => (keepPairMask m).map pairOf) :=
      funext takePair_decode
    rw [hfun, ← List.map_filterMap, hKeepP, hb, List.map_map]
    have hid : ∀ p ∈ pairs, (pairOf ∘ fun p => 2 ^ p.1 ||| 2 ^ p.2) p = p := by
      intro p hp
      have h4 := hpairs p hp
      simp [Function.comp, pairOf, decodeMask_pair p.1 p.2 h4.1 (by omega)]
    rw [List.map_congr_left hid]; exact List.map_id _
  · intro hc
    obtain ⟨m, hm1, hm2⟩ := List.mem_map.mp hc
    have hm3 : m ∈ a ++ b := hperm.mem_iff.mp hm1
    rcases List.mem_append.mp hm3 with h1 | h1
    · obtain ⟨t, _, hdec, _⟩ := hda m h1
      rw [hdec] at hm2
      cases hm2
    · obtain ⟨l, r, _, _, hdec⟩ := hdb m h1
      rw [hdec] at hm2
      cases hm2

lemma selection_roundtrip (k : ℕ) (sel : Selection ℕ) (h : SelectionCanonical sel) :
    ∃ masks, selectionMasks sel = some masks ∧
      decodeSelEntry (k, masks) = Except.ok (k, sel) := by
  obtain ⟨hsort, hlt, hpairs, hpsort⟩ := h
  have hma : mapOpt termMask sel.selected_terms =
      some (sel.selected_terms.map (fun t => 2 ^ t)) := by
    apply mapOpt_eq_map
    intro t htm
    unfold termMask
    rw [if_pos (hlt t htm)]
  have hmb : mapOpt pairMaskOpt sel.selected_pairs =
      some (sel.selected_pairs.map (fun p => 2 ^ p.1 ||| 2 ^ p.2)) := by
    apply mapOpt_eq_map
    intro p hp
    unfold pairMaskOpt
    have h3 := hpairs p hp
    rw [if_pos ⟨by omega, by omega⟩]
  obtain ⟨hS, hP, hO⟩ := decode_masks_sorted sel.selected_terms sel.selected_pairs
    hsort hlt hpairs hpsort
  refine ⟨sortBy natLe (sel.selected_terms.map (fun t => 2 ^ t) ++
      sel.selected_pairs.map (fun p => 2 ^ p.1 ||| 2 ^ p.2)), ?_, ?_⟩
  · unfold selectionMasks
    rw [hma, hmb]
  · unfold decodeSelEntry
    rw [if_neg hO, List.filterMap_map, List.filterMap_map, hS, hP]

lemma sel_list_roundtrip (l : List (ℕ × Selection ℕ)) (h : ∀ e ∈ l, SelectionCanonical e.2) :
    ∃ sl, mapOpt (fun e => (selectionMasks e.2).map (fun m => (e.1, m))) l = some sl ∧
      mapE decodeSelEntry sl = Except.ok l := by
  induction l with
  | nil => exact ⟨[], rfl, rfl⟩
  | cons e l ih =>
    obtain ⟨masks, hm1, hm2⟩ := selection_roundtrip e.1 e.2 (h e (List.mem_cons_self _ _))
    obtain ⟨sl, h1, h2⟩ := ih (fun x hx => h x (List.mem_cons_of_mem _ hx))
    refine ⟨(e.1, masks) :: sl, ?_, ?_⟩
    · simp [mapOpt, hm1, h1]
    · have he : decodeSelEntry (e.1, masks) = Except.ok e := hm2
      simp [mapE, he, h2]

lemma ite_list_getD (cond : Prop) [Decidable cond] (l : List α) (sl : List β)
    (hsl : cond → sl = []) : ((if cond then none else some sl).getD []) = sl := by
  by_cases h : cond
  · rw [if_pos h, hsl h]
    rfl
  · rw [if_neg h]
    rfl

lemma ite_self_getD (cond : Prop) [Decidable cond] (l : List α) (hl : cond → l = []) :
    ((if cond then none else some l).getD []) = l := by
  by_cases h : cond
  · rw [if_pos h, hl h]
    rfl
  · rw [if_neg h]
    rfl

/-- C5 (amended): parsing the JSON produced for a `QueryContainer` yields an
equal container for every container (built via the documented APIs, hence with
at least one of query / terms / term ids present) whose stored selections are
canonical: singleton positions sorted ascending and < 32, pair positions
(l, r) with l < r < 32, pairs sorted by their encoded bitmask.  (For other
selections the bitmask encoding of `to_json` is lossy — see the
counterexample.) -/
theorem query_container_roundtrip (c : QueryContainerInner)
    (hreq : c.query_string.isSome = true ∨ c.processed_terms.isSome = true ∨
      c.term_ids.isSome = true)
    (hsel : ∀ e ∈ c.selections, SelectionCanonical e.2) :
    (toJson c).map fromJson = some (Except.ok c) := by
  obtain ⟨cid, cq, cterms, ctids, cth, csel⟩ := c
  obtain ⟨sl, h1, h2⟩ := sel_list_roundtrip csel hsel
  have hslnil : (csel = []) → sl = [] := by
    intro he
    subst he
    have h3 : (some [] : Option (List (ℕ × List ℕ))) = some sl := h1
    injection h3 with h3
    exact h3.symm
  have htj : toJson (QueryContainerInner.mk cid cq cterms ctids cth csel) =
      some (toJsonWith (QueryContainerInner.mk cid cq cterms ctids cth csel) sl) := by
    unfold toJson
    rw [h1]
  rw [htj, Option.map_some']
  congr 1
  have hstep : fromJson (toJsonWith (QueryContainerInner.mk cid cq cterms ctids cth csel) sl) =
      fromJsonChecked (toJsonWith (QueryContainerInner.mk cid cq cterms ctids cth csel) sl)
        csel := by
    unfold fromJson toJsonWith
    rw [ite_list_getD _ csel sl hslnil, h2]
  rw [hstep]
  unfold fromJsonChecked toJsonWith
  have hb : (cq.isSome || cterms.isSome || ctids.isSome) = true := by
    rcases hreq with h | h | h <;> simp_all
  rw [hb, if_pos rfl, ite_self_getD _ cth (fun h => h)]

/-- Witness for C5's amended theorem: a container with id, raw query, term
ids, one threshold and one canonical selection round-trips. -/
theorem query_container_roundtrip_witness :
    (toJson (QueryContainerInner.mk (some "q1") (some "hello world") none (some [0, 2])
        [(10, 3 / 2)] [(10, Selection.mk [0, 2] [(1, 3)])])).map fromJson =
      some (Except.ok (QueryContainerInner.mk (some "q1") (some "hello world") none
        (some [0, 2]) [(10, 3 / 2)] [(10, Selection.mk [0, 2] [(1, 3)])])) :=
  query_container_roundtrip _ (Or.inl rfl) (by decide)

set_option maxRecDepth 10000 in
/-- C5, counterexample: a selection stored with `selected_terms = [1, 0]`
(constructible through `add_selection`) serializes to the sorted masks
`[1, 2]`, which parse back as `selected_terms = [0, 1]`; the round trip does
not return an equal container. -/
theorem query_container_roundtrip_cex :
    (toJson (QueryContainerInner.mk none none none (some [0]) []
        [(10, Selection.mk [1, 0] [])])).isSome = true ∧
    (toJson (QueryContainerInner.mk none none none (some [0]) []
        [(10, Selection.mk [1, 0] [])])).map fromJson ≠
      some (Except.ok (QueryContainerInner.mk none none none (some [0]) []
        [(10, Selection.mk [1, 0] [])])) := by
  constructor
  · rfl
  · intro hcontra
    have h1 : (toJson (QueryContainerInner.mk none none none (some [0]) []
        [(10, Selection.mk [1, 0] [])])).map fromJson =
        some (Except.ok (QueryContainerInner.mk none none none (some [0]) []
          [(10, Selection.mk [0, 1] [])])) := rfl
    rw [h1] at hcontra
    injection hcontra with h2
    injection h2 with h3
    exact absurd h3 (by decide)
